import Mathlib

/-!
Verification of the ymldiff core (src/main.go) against its specification.

The YAML value trees that the Go code manipulates as `interface{}` are
modelled by the inductive type `Value` below.  A Go `nil` (the decoding of a
YAML `null`, and also the "absent document" sentinel) is `Value.vnull`;
scalars keep their distinguishing type (`bool`, `int`, `string`); a decoded
mapping (`map[interface{}]interface{}`) is an association list of key/value
pairs with the keys unique; a decoded sequence (`[]interface{}`) is a list.
Go's built-in maps are unordered, so the order of an association list is an
artifact of the embedding: it plays the role of an (arbitrary but fixed)
iteration order.

Functions that can panic in Go (via `reflect.TypeOf(nil).Kind()` on a `nil`
slice element) are embedded as `Option`-valued functions where `none` is a
panic; general recursion in the differ is embedded with an explicit fuel
parameter (`none` also results when fuel runs out, which never happens for
fuel larger than the nesting depth of the inputs).
-/

inductive Value where
  | vnull
  | vbool (b : Bool)
  | vint (n : Int)
  | vstr (s : String)
  | vmap (entries : List (Value × Value))
  | vseq (elems : List Value)
deriving Inhabited

mutual

def decEqV : (a b : Value) → Decidable (a = b)
  | .vnull, .vnull => isTrue rfl
  | .vbool a, .vbool b =>
    if h : a = b then isTrue (by rw [h]) else isFalse (fun hh => h (by injection hh))
  | .vint a, .vint b =>
    if h : a = b then isTrue (by rw [h]) else isFalse (fun hh => h (by injection hh))
  | .vstr a, .vstr b =>
    if h : a = b then isTrue (by rw [h]) else isFalse (fun hh => h (by injection hh))
  | .vmap a, .vmap b =>
    match decEqE a b with
    | isTrue h => isTrue (by rw [h])
    | isFalse h => isFalse (fun hh => h (by injection hh))
  | .vseq a, .vseq b =>
    match decEqL a b with
    | isTrue h => isTrue (by rw [h])
    | isFalse h => isFalse (fun hh => h (by injection hh))
  | .vnull, .vbool _ => isFalse (fun h => Value.noConfusion h)
  | .vnull, .vint _ => isFalse (fun h => Value.noConfusion h)
  | .vnull, .vstr _ => isFalse (fun h => Value.noConfusion h)
  | .vnull, .vmap _ => isFalse (fun h => Value.noConfusion h)
  | .vnull, .vseq _ => isFalse (fun h => Value.noConfusion h)
  | .vbool _, .vnull => isFalse (fun h => Value.noConfusion h)
  | .vbool _, .vint _ => isFalse (fun h => Value.noConfusion h)
  | .vbool _, .vstr _ => isFalse (fun h => Value.noConfusion h)
  | .vbool _, .vmap _ => isFalse (fun h => Value.noConfusion h)
  | .vbool _, .vseq _ => isFalse (fun h => Value.noConfusion h)
  | .vint _, .vnull => isFalse (fun h => Value.noConfusion h)
  | .vint _, .vbool _ => isFalse (fun h => Value.noConfusion h)
  | .vint _, .vstr _ => isFalse (fun h => Value.noConfusion h)
  | .vint _, .vmap _ => isFalse (fun h => Value.noConfusion h)
  | .vint _, .vseq _ => isFalse (fun h => Value.noConfusion h)
  | .vstr _, .vnull => isFalse (fun h => Value.noConfusion h)
  | .vstr _, .vbool _ => isFalse (fun h => Value.noConfusion h)
  | .vstr _, .vint _ => isFalse (fun h => Value.noConfusion h)
  | .vstr _, .vmap _ => isFalse (fun h => Value.noConfusion h)
  | .vstr _, .vseq _ => isFalse (fun h => Value.noConfusion h)
  | .vmap _, .vnull => isFalse (fun h => Value.noConfusion h)
  | .vmap _, .vbool _ => isFalse (fun h => Value.noConfusion h)
  | .vmap _, .vint _ => isFalse (fun h => Value.noConfusion h)
  | .vmap _, .vstr _ => isFalse (fun h => Value.noConfusion h)
  | .vmap _, .vseq _ => isFalse (fun h => Value.noConfusion h)
  | .vseq _, .vnull => isFalse (fun h => Value.noConfusion h)
  | .vseq _, .vbool _ => isFalse (fun h => Value.noConfusion h)
  | .vseq _, .vint _ => isFalse (fun h => Value.noConfusion h)
  | .vseq _, .vstr _ => isFalse (fun h => Value.noConfusion h)
  | .vseq _, .vmap _ => isFalse (fun h => Value.noConfusion h)

def decEqL : (a b : List Value) → Decidable (a = b)
  | [], [] => isTrue rfl
  | [], _ :: _ => isFalse (fun h => List.noConfusion h)
  | _ :: _, [] => isFalse (fun h => List.noConfusion h)
  | x :: xs, y :: ys =>
    match decEqV x y with
    | isFalse h => isFalse (fun hh => h (by injection hh))
    | isTrue h1 =>
      match decEqL xs ys with
      | isFalse h => isFalse (fun hh => h (by injection hh))
      | isTrue h2 => isTrue (by rw [h1, h2])

def decEqE : (a b : List (Value × Value)) → Decidable (a = b)
  | [], [] => isTrue rfl
  | [], _ :: _ => isFalse (fun h => List.noConfusion h)
  | _ :: _, [] => isFalse (fun h => List.noConfusion h)
  | (k, v) :: xs, (k', v') :: ys =>
    match decEqV k k' with
    | isFalse h => isFalse (fun hh => h (by injection hh with h1 h2; exact congrArg Prod.fst h1))
    | isTrue hk =>
      match decEqV v v' with
      | isFalse h => isFalse (fun hh => h (by injection hh with h1 h2; exact congrArg Prod.snd h1))
      | isTrue hv =>
        match decEqE xs ys with
        | isFalse h => isFalse (fun hh => h (by injection hh))
        | isTrue ht => isTrue (by rw [hk, hv, ht])

end

instance : DecidableEq Value := decEqV

/-!
The function `goString` models `fmt.Sprintf("%v", v)`, the string representation the Go
code uses for identifier extraction and as the sort key of the
canonicalizer.  Go prints `nil` as `<nil>`, booleans as `true`/`false`,
integers in decimal, strings verbatim, slices as `[e1 e2]`, and maps as
`map[k1:v1 k2:v2]` (the entries of the association list are printed in list
order; `fmt` prints Go maps in sorted key order, and in this embedding the
entry order of an association list stands in for that deterministic order).
-/

mutual

def goString : Value → String
  | .vnull => "<nil>"
  | .vbool b => if b then "true" else "false"
  | .vint n => toString n
  | .vstr s => s
  | .vseq xs => "[" ++ goStringList xs ++ "]"
  | .vmap es => "map[" ++ goStringEntries es ++ "]"

def goStringList : List Value → String
  | [] => ""
  | [x] => goString x
  | x :: y :: rest => goString x ++ " " ++ goStringList (y :: rest)

def goStringEntries : List (Value × Value) → String
  | [] => ""
  | [(k, v)] => goString k ++ ":" ++ goString v
  | (k, v) :: e :: rest => goString k ++ ":" ++ goString v ++ " " ++ goStringEntries (e :: rest)

end

/-- The `reflect.Kind` of the dynamic type of a non-nil `interface{}` value
in this embedding.  `goTypeOf` models `reflect.TypeOf`: it returns `none`
for a nil interface (Go: a nil `reflect.Type`). -/
inductive GoKind where
  | kbool
  | kint
  | kstring
  | kmap
  | kslice
deriving DecidableEq

def goTypeOf : Value → Option GoKind
  | .vnull => none
  | .vbool _ => some .kbool
  | .vint _ => some .kint
  | .vstr _ => some .kstring
  | .vmap _ => some .kmap
  | .vseq _ => some .kslice

/-- Go map lookup `m[k]` on the association-list model of
`map[interface{}]interface{}` (keys are unique, so the first match is the
match). -/
def mapGet : List (Value × Value) → Value → Option Value
  | [], _ => none
  | (k, v) :: rest, q => if k = q then some v else mapGet rest q

/-- The body of the per-element check of `isSliceOfDictsWithIds`
(src/main.go lines 48-56): does the mapping contain one of the identifier
keys `name`, `key`, `id`? -/
def hasIdKey (m : List (Value × Value)) : Bool :=
  (mapGet m (.vstr "name")).isSome || (mapGet m (.vstr "key")).isSome ||
    (mapGet m (.vstr "id")).isSome

/-- The scanning loop of `isSliceOfDictsWithIds` (src/main.go lines 42-57).
For each element in order: `reflect.TypeOf(item).Kind()` panics (`none`)
when the element is nil; a non-map element returns `false` immediately; a
map element containing an identifier key returns `true` immediately;
otherwise the scan continues.  A completed scan returns `false`. -/
def scanForIds : List Value → Option Bool
  | [] => some false
  | item :: rest =>
    match item with
    | .vnull => none
    | .vmap m => if hasIdKey m then some true else scanForIds rest
    | _ => some false

/-- `isSliceOfDictsWithIds` (src/main.go lines 37-59): an empty slice is
rejected up front, otherwise the elements are scanned. -/
def isSliceOfDictsWithIds (slice : List Value) : Option Bool :=
  if slice.length = 0 then some false else scanForIds slice

/-- Lexicographic strict comparison of character lists, one character at a
time.  This models Go's built-in `<` on strings: Go compares the UTF-8
bytes lexicographically, and UTF-8 is order-preserving, so byte order and
codepoint order agree. -/
def charListLt : List Char → List Char → Bool
  | [], [] => false
  | [], _ :: _ => true
  | _ :: _, [] => false
  | c :: cs, d :: ds => if c < d then true else if d < c then false else charListLt cs ds

/-- Go's `s1 < s2` on strings. -/
def strLt (a b : String) : Bool := charListLt a.data b.data

/-- Insertion of `x` into a list sorted by the strict comparator `lt`,
keeping `x` after every element `y` with `lt y x`. -/
def insertSorted (lt : α → α → Bool) (x : α) : List α → List α
  | [] => [x]
  | y :: ys => if lt y x then y :: insertSorted lt x ys else x :: y :: ys

/-- Stable sort by a strict comparator; models `sort.Slice(s, less)` (which
Go implements with an unstable sort, but every use in this program sorts by
a deterministic string key, for which stable insertion sort produces the
same sorted order). -/
def sortByLt (lt : α → α → Bool) : List α → List α
  | [] => []
  | x :: xs => insertSorted lt x (sortByLt lt xs)

/-!
`normalizeValue` (src/main.go lines 389-434), the canonicalizer.  Scalars
and nil pass through; a map's values are normalized recursively and its
entries are ordered by the lexicographic order of the keys' `%v` strings
(the Go code sorts the keys first and then normalizes each value; since
normalization does not touch the keys, normalizing the values first and
then sorting the entries by key produces the same map); a slice's elements
are normalized recursively, and then the slice is sorted by the elements'
`%v` strings unless `isSliceOfDictsWithIds` classifies it as a slice of
dictionaries with identifiers — whose panic (`none`) on a nil element
propagates. -/
mutual

def normalizeValue : Value → Option Value
  | .vnull => some .vnull
  | .vbool b => some (.vbool b)
  | .vint n => some (.vint n)
  | .vstr s => some (.vstr s)
  | .vmap entries =>
    match normEntries entries with
    | none => none
    | some entries' =>
      some (.vmap (sortByLt (fun a b => strLt (goString a.1) (goString b.1)) entries'))
  | .vseq elems =>
    match normList elems with
    | none => none
    | some elems' =>
      match isSliceOfDictsWithIds elems' with
      | none => none
      | some true => some (.vseq elems')
      | some false => some (.vseq (sortByLt (fun a b => strLt (goString a) (goString b)) elems'))

def normList : List Value → Option (List Value)
  | [] => some []
  | x :: xs =>
    match normalizeValue x with
    | none => none
    | some x' =>
      match normList xs with
      | none => none
      | some xs' => some (x' :: xs')

def normEntries : List (Value × Value) → Option (List (Value × Value))
  | [] => some []
  | (k, v) :: rest =>
    match normalizeValue v with
    | none => none
    | some v' =>
      match normEntries rest with
      | none => none
      | some rest' => some ((k, v') :: rest')

end

/-- `ChangeType` (src/main.go lines 19-26). -/
inductive ChangeType where
  | Addition
  | Deletion
  | Modification
deriving DecidableEq

/-- `Change` (src/main.go lines 28-34).  The Go struct field `Type` is named
`kind` here (`Type` is reserved in Lean); a Go `nil` in `OldValue`/`NewValue`
is `Value.vnull`. -/
structure Change where
  kind : ChangeType
  path : String
  oldValue : Value
  newValue : Value
deriving DecidableEq

/-- Identifier extraction from one element of a slice, as performed by both
lookup-map loops of `diffSliceOfDicts` (src/main.go lines 69-91): a non-map
element has no identifier; a map element's identifier is the `%v` string of
the value under the first of the keys `name`, `key`, `id` that is present,
and a map with none of them has no identifier. -/
def extractId : Value → Option String
  | .vmap m =>
    match mapGet m (.vstr "name") with
    | some nameVal => some (goString nameVal)
    | none =>
      match mapGet m (.vstr "key") with
      | some keyVal => some (goString keyVal)
      | none =>
        match mapGet m (.vstr "id") with
        | some idVal => some (goString idVal)
        | none => none
  | _ => none

/-- Go map assignment `m[k] = v` on the association-list model of
`map[string]interface{}`: an existing entry for `k` is overwritten in
place, otherwise the entry is appended. -/
def idInsert (k : String) (v : Value) : List (String × Value) → List (String × Value)
  | [] => [(k, v)]
  | (k', v') :: rest => if k' = k then (k, v) :: rest else (k', v') :: idInsert k v rest

/-- Go map lookup `m[k]` on the association-list model of
`map[string]interface{}`. -/
def idGet : List (String × Value) → String → Option Value
  | [], _ => none
  | (k', v) :: rest, k => if k' = k then some v else idGet rest k

/-- The lookup-map construction of `diffSliceOfDicts` (src/main.go lines
66-91): group the elements of a slice by extracted identifier.  An element
without an identifier is skipped; a repeated identifier overwrites the
earlier entry. -/
def buildIdMap (slice : List Value) : List (String × Value) :=
  slice.foldl (fun acc item =>
    match extractId item with
    | some k => idInsert k item acc
    | none => acc) []

/-- The first loop of the matching phase of `diffSliceOfDicts` (src/main.go
lines 94-108), iterating over the old lookup map: an identifier also
present in the new map is diffed recursively (`dv` is the recursive
`diffValues` call, `none` = panic, propagated), an identifier only in the
old map yields a `Deletion` carrying the old element. -/
def dictOldLoop (dv : Value → Value → String → Option (List Change)) :
    List (String × Value) → List (String × Value) → String → Option (List Change)
  | [], _, _ => some []
  | (k, oldItem) :: rest, newMap, path =>
    match idGet newMap k with
    | some newItem =>
      match dv oldItem newItem (path ++ "[" ++ k ++ "]") with
      | none => none
      | some sub =>
        match dictOldLoop dv rest newMap path with
        | none => none
        | some restChanges => some (sub ++ restChanges)
    | none =>
      match dictOldLoop dv rest newMap path with
      | none => none
      | some restChanges =>
        some ({ kind := .Deletion, path := path ++ "[" ++ k ++ "]",
                oldValue := oldItem, newValue := .vnull } :: restChanges)

/-- The second loop of the matching phase of `diffSliceOfDicts`
(src/main.go lines 110-120), iterating over the new lookup map: an
identifier absent from the old map yields an `Addition` carrying the new
element. -/
def dictNewLoop : List (String × Value) → List (String × Value) → String → List Change
  | [], _, _ => []
  | (k, newItem) :: rest, oldMap, path =>
    if (idGet oldMap k).isSome then dictNewLoop rest oldMap path
    else { kind := .Addition, path := path ++ "[" ++ k ++ "]",
           oldValue := .vnull, newValue := newItem } :: dictNewLoop rest oldMap path

/-- The matching phase of `diffSliceOfDicts` on two already-built lookup
maps. -/
def dictDiffCore (dv : Value → Value → String → Option (List Change))
    (oldMap newMap : List (String × Value)) (path : String) : Option (List Change) :=
  match dictOldLoop dv oldMap newMap path with
  | none => none
  | some part1 => some (part1 ++ dictNewLoop newMap oldMap path)

/-- `diffSliceOfDicts` (src/main.go lines 62-123), parameterized by the
recursive call `dv` into `diffValues`. -/
def diffSliceOfDictsW (dv : Value → Value → String → Option (List Change))
    (oldSlice newSlice : List Value) (path : String) : Option (List Change) :=
  dictDiffCore dv (buildIdMap oldSlice) (buildIdMap newSlice) path

/-- The first loop of the map case of `diffValues` (src/main.go lines
303-317), iterating over the old map's entries: a key absent from the new
map yields a `Deletion` at `path + "." + key`, a key present in both is
diffed recursively. -/
def diffMapOldLoop (dv : Value → Value → String → Option (List Change)) :
    List (Value × Value) → List (Value × Value) → String → Option (List Change)
  | [], _, _ => some []
  | (k, oldValue) :: rest, newMap, path =>
    match mapGet newMap k with
    | none =>
      match diffMapOldLoop dv rest newMap path with
      | none => none
      | some restChanges =>
        some ({ kind := .Deletion, path := path ++ "." ++ goString k,
                oldValue := oldValue, newValue := .vnull } :: restChanges)
    | some newValue =>
      match dv oldValue newValue (path ++ "." ++ goString k) with
      | none => none
      | some sub =>
        match diffMapOldLoop dv rest newMap path with
        | none => none
        | some restChanges => some (sub ++ restChanges)

/-- The second loop of the map case of `diffValues` (src/main.go lines
320-330): a key of the new map absent from the old map yields an
`Addition` at `path + "." + key`. -/
def mapNewLoop : List (Value × Value) → List (Value × Value) → String → List Change
  | [], _, _ => []
  | (k, newValue) :: rest, oldMap, path =>
    if (mapGet oldMap k).isSome then mapNewLoop rest oldMap path
    else { kind := .Addition, path := path ++ "." ++ goString k,
           oldValue := .vnull, newValue := newValue } :: mapNewLoop rest oldMap path

/-- The positional loop of the slice case of `diffValues` (src/main.go
lines 341-349): recurse index by index while both slices have elements,
carrying the current index `i`. -/
def seqMinLoop (dv : Value → Value → String → Option (List Change)) :
    List Value → List Value → Nat → String → Option (List Change)
  | o :: os, n :: ns, i, path =>
    match dv o n (path ++ "[" ++ toString i ++ "]") with
    | none => none
    | some sub =>
      match seqMinLoop dv os ns (i + 1) path with
      | none => none
      | some rest => some (sub ++ rest)
  | _, _, _, _ => some []

/-- The surplus-deletions loop of the slice case of `diffValues`
(src/main.go lines 352-360). -/
def seqDels : List Value → Nat → String → List Change
  | [], _, _ => []
  | x :: xs, i, path =>
    { kind := .Deletion, path := path ++ "[" ++ toString i ++ "]",
      oldValue := x, newValue := .vnull } :: seqDels xs (i + 1) path

/-- The surplus-additions loop of the slice case of `diffValues`
(src/main.go lines 361-369). -/
def seqAdds : List Value → Nat → String → List Change
  | [], _, _ => []
  | x :: xs, i, path =>
    { kind := .Addition, path := path ++ "[" ++ toString i ++ "]",
      oldValue := .vnull, newValue := x } :: seqAdds xs (i + 1) path

/-- The positional branch of the slice case of `diffValues` (src/main.go
lines 339-371), parameterized by the recursive call `dv`. -/
def diffSeqPosW (dv : Value → Value → String → Option (List Change))
    (oldSlice newSlice : List Value) (path : String) : Option (List Change) :=
  match seqMinLoop dv oldSlice newSlice 0 path with
  | none => none
  | some minChanges =>
    some (minChanges ++
      (if newSlice.length < oldSlice.length then
        seqDels (oldSlice.drop newSlice.length) newSlice.length path
      else if oldSlice.length < newSlice.length then
        seqAdds (newSlice.drop oldSlice.length) oldSlice.length path
      else []))

/-- `diffValues` (src/main.go lines 256-386), with an explicit fuel
parameter standing in for Go's unbounded recursion (`none` when the fuel
runs out or when `isSliceOfDictsWithIds` panics).  In order: the
`reflect.DeepEqual` short-circuit (structural equality — on canonical
values the association-list equality used here agrees with Go's
order-insensitive map equality); the type-mismatch `Modification` for two
present values of different dynamic types; `Addition`/`Deletion` when
exactly one side is nil; then the per-kind cases (map, slice with either
the identifier-matching or the positional strategy, and the primitive
fallback). -/
def diffValues : Nat → Value → Value → String → Option (List Change)
  | 0, _, _, _ => none
  | fuel + 1, oldVal, newVal, path =>
    if oldVal = newVal then
      some []
    else if goTypeOf oldVal ≠ goTypeOf newVal ∧ oldVal ≠ .vnull ∧ newVal ≠ .vnull then
      some [{ kind := .Modification, path := path, oldValue := oldVal, newValue := newVal }]
    else if oldVal = .vnull ∧ newVal ≠ .vnull then
      some [{ kind := .Addition, path := path, oldValue := .vnull, newValue := newVal }]
    else if oldVal ≠ .vnull ∧ newVal = .vnull then
      some [{ kind := .Deletion, path := path, oldValue := oldVal, newValue := .vnull }]
    else
      match oldVal, newVal with
      | .vmap oldMap, .vmap newMap =>
        (match diffMapOldLoop (fun a b p => diffValues fuel a b p) oldMap newMap path with
         | none => none
         | some part1 => some (part1 ++ mapNewLoop newMap oldMap path))
      | .vseq oldSlice, .vseq newSlice =>
        (match isSliceOfDictsWithIds oldSlice with
         | none => none
         | some true =>
           (match isSliceOfDictsWithIds newSlice with
            | none => none
            | some true => diffSliceOfDictsW (fun a b p => diffValues fuel a b p) oldSlice newSlice path
            | some false => diffSeqPosW (fun a b p => diffValues fuel a b p) oldSlice newSlice path)
         | some false => diffSeqPosW (fun a b p => diffValues fuel a b p) oldSlice newSlice path)
      | o, n =>
        if o = n then some []
        else some [{ kind := .Modification, path := path, oldValue := o, newValue := n }]

/-- `diffSliceOfDicts` at a given recursion fuel for the inner `diffValues`
calls. -/
def diffSliceOfDicts (fuel : Nat) (oldSlice newSlice : List Value) (path : String) :
    Option (List Change) :=
  diffSliceOfDictsW (fun a b p => diffValues fuel a b p) oldSlice newSlice path

/-- `isStringValue` (src/main.go lines 217-220). -/
def isStringValue : Value → Bool
  | .vstr _ => true
  | _ => false

mutual

/-- Modelled from the spec: `formatValue` serializes Mapping/Sequence
values through the external `gopkg.in/yaml.v3` encoder with 3-space
indentation (src/main.go lines 238-249); that encoder is not part of this
repository, and the spec only requires complex values to be "serialized in
the same markup format as the input, indented" (§4.4).  This model renders
a minimal YAML block: scalar leaves inline, mapping entries as
`key: value` lines, sequence elements as `- value` lines, nested blocks
indented by 3 spaces. -/
def yamlLines : Value → List String
  | .vnull => ["null"]
  | .vbool b => [if b then "true" else "false"]
  | .vint n => [toString n]
  | .vstr s => [s]
  | .vmap es => yamlEntryLines es
  | .vseq xs => yamlElemLines xs

def yamlElemLines : List Value → List String
  | [] => []
  | x :: xs =>
    (match yamlLines x with
     | [] => ["-"]
     | l :: rest => ("- " ++ l) :: rest.map (fun r => "   " ++ r)) ++ yamlElemLines xs

def yamlEntryLines : List (Value × Value) → List String
  | [] => []
  | (k, v) :: rest =>
    (match v with
     | .vmap inner => (goString k ++ ":") :: (yamlLines (.vmap inner)).map (fun r => "   " ++ r)
     | .vseq inner => (goString k ++ ":") :: (yamlLines (.vseq inner)).map (fun r => "   " ++ r)
     | leaf => [goString k ++ ": " ++ goString leaf]) ++ yamlEntryLines rest

end

/-- `formatValue` (src/main.go lines 231-253): nil prints as `null`, map
and slice values are YAML-serialized (multi-line), every other value is
printed with `%v`. -/
def formatValue : Value → String
  | .vnull => "null"
  | .vmap es => String.intercalate "\n" (yamlLines (.vmap es))
  | .vseq xs => String.intercalate "\n" (yamlLines (.vseq xs))
  | v => goString v

/-- `strings.Split(s, "\n")` on the character-list representation. -/
def splitCharsNL : List Char → List (List Char)
  | [] => [[]]
  | c :: cs =>
    if c = '\n' then [] :: splitCharsNL cs
    else
      match splitCharsNL cs with
      | [] => [[c]]
      | l :: ls => (c :: l) :: ls

/-- `strings.Contains(s, "\n")` — the renderer's check for a complex
(multi-line) formatted value (src/main.go lines 149, 164). -/
def containsNL (s : String) : Bool := s.data.any (fun c => c = '\n')

/-- `strings.TrimSpace(line) != ""` — does the line contain a
non-whitespace character? (src/main.go line 205). -/
def hasNonSpace (s : String) : Bool := s.data.any (fun c => !c.isWhitespace)

/-- `prefixLinesComplex` (src/main.go lines 194-214): split into lines;
every line except an empty first line is emitted as the change marker, 3
extra spaces of indentation when the line is not blank, the line, and a
newline. -/
def prefixLinesComplex (s marker : String) : String :=
  String.join
    (((splitCharsNL s.data).map String.mk).enum.filterMap (fun p =>
      if p.1 > 0 ∨ p.2 ≠ "" then
        some (marker ++ (if hasNonSpace p.2 then "   " else "") ++ p.2 ++ "\n")
      else none))

/-- One rendered block of `generateColoredDiff`'s output loop (src/main.go
lines 141-187), with colors disabled: the `fatih/color` sprints wrap the
markers and strings in escape sequences without changing the text, and
emit none in no-color mode; in particular for a modification of two string
values `colorStringDiff` (src/main.go lines 223-228) returns the two
strings themselves, so the no-color modification line is
`old → new` through either branch of the `isStringValue` check. -/
def renderChange (c : Change) : String :=
  match c.kind with
  | .Addition =>
    let formatted := formatValue c.newValue
    "+ " ++ c.path ++ ": " ++
      (if containsNL formatted then "\n" ++ prefixLinesComplex formatted "+ "
       else formatted ++ "\n")
  | .Deletion =>
    let formatted := formatValue c.oldValue
    "- " ++ c.path ++ ": " ++
      (if containsNL formatted then "\n" ++ prefixLinesComplex formatted "- "
       else formatted ++ "\n")
  | .Modification =>
    "~ " ++ c.path ++ ": " ++ formatValue c.oldValue ++ " → " ++ formatValue c.newValue ++ "\n"

/-- `generateColoredDiff` (src/main.go lines 126-191).  The Go function
receives the caller's `[]Change` slice and sorts it in place with
`sort.Slice` before rendering, so the caller's collection is mutated; this
embedding returns the pair (the collection as the caller observes it after
the call, the rendered text).  An empty collection is returned untouched
with the literal `No changes found.` line. -/
def generateColoredDiff (changes : List Change) : List Change × String :=
  if changes.length = 0 then (changes, "No changes found.\n")
  else
    let sorted := sortByLt (fun a b => strLt a.path b.path) changes
    (sorted, String.join (sorted.map renderChange))

/-- Is the value a Mapping?  (What claim C3 requires of every element of an
identifiable-record sequence.) -/
def isMapB : Value → Bool
  | .vmap _ => true
  | _ => false

/-- The Record Matcher as the spec describes it (§4.3 / claim C1): build
the two identifier lookup maps; each identifier of the old map that is
absent from the new map contributes exactly one `Deletion` at
`path + "[" + identifier + "]"` carrying the old element with no
recursion; each identifier present in both contributes the recursive diff
of the two full elements at that path; each identifier only in the new map
contributes exactly one `Addition` at that path carrying the new element
with no recursion.  `specDelOrRec` is the contribution of one old-map entry:
a recursive diff when the identifier is in both maps, otherwise its
`Deletion`. -/
def specDelOrRec (dv : Value → Value → String → Option (List Change))
    (newMap : List (String × Value)) (path : String) (kv : String × Value) :
    Option (List Change) :=
  match idGet newMap kv.1 with
  | none => some [{ kind := .Deletion, path := path ++ "[" ++ kv.1 ++ "]",
                    oldValue := kv.2, newValue := .vnull }]
  | some newItem => dv kv.2 newItem (path ++ "[" ++ kv.1 ++ "]")

/-- The `Addition` contributed by an identifier present only in the new
lookup map (spec §4.3). -/
def specAddChange (path : String) (kv : String × Value) : Change :=
  { kind := .Addition, path := path ++ "[" ++ kv.1 ++ "]", oldValue := .vnull, newValue := kv.2 }

def specRecordMatch (dv : Value → Value → String → Option (List Change))
    (oldSlice newSlice : List Value) (path : String) : Option (List Change) := do
  let oldMap := buildIdMap oldSlice
  let newMap := buildIdMap newSlice
  let parts ← oldMap.mapM' (specDelOrRec dv newMap path)
  pure (parts.flatten ++
    (newMap.filter (fun kv => (idGet oldMap kv.1).isNone)).map (specAddChange path))

/-- Positional sequence comparison as the spec describes it (§4.2 step 5 /
claim C7): recurse on each index `i` below the shorter length at
`path + "[" + i + "]"`, then emit one `Deletion` (old longer) or one
`Addition` (new longer) for each surplus trailing element at its index,
with no recursion into those elements.  `specIndexDiff` is the recursive
diff of one aligned pair of elements at its index. -/
def specIndexDiff (dv : Value → Value → String → Option (List Change)) (path : String)
    (p : Nat × (Value × Value)) : Option (List Change) :=
  dv p.2.1 p.2.2 (path ++ "[" ++ toString p.1 ++ "]")

/-- The `Deletion` of a surplus trailing element at its index (spec §4.2
step 5). -/
def specDelAt (path : String) (p : Nat × Value) : Change :=
  { kind := .Deletion, path := path ++ "[" ++ toString p.1 ++ "]",
    oldValue := p.2, newValue := .vnull }

/-- The `Addition` of a surplus trailing element at its index (spec §4.2
step 5). -/
def specAddAt (path : String) (p : Nat × Value) : Change :=
  { kind := .Addition, path := path ++ "[" ++ toString p.1 ++ "]",
    oldValue := .vnull, newValue := p.2 }

def specPositional (dv : Value → Value → String → Option (List Change))
    (oldSlice newSlice : List Value) (path : String) : Option (List Change) := do
  let parts ← ((oldSlice.zip newSlice).enum).mapM' (specIndexDiff dv path)
  pure (parts.flatten ++
    (if newSlice.length < oldSlice.length then
      ((oldSlice.drop newSlice.length).enumFrom newSlice.length).map (specDelAt path)
    else if oldSlice.length < newSlice.length then
      ((newSlice.drop oldSlice.length).enumFrom oldSlice.length).map (specAddAt path)
    else []))

/-!
Theorems.  First the general lemmas about the embedded operations, then one
theorem per specification claim (with a witness or counterexample where
required).
-/

theorem charListLt_lex : ∀ as bs : List Char, charListLt as bs = true ↔ List.Lex (· < ·) as bs := by
  intro as
  induction as with
  | nil =>
    intro bs
    cases bs with
    | nil =>
      constructor
      · intro h; exact absurd h (by simp [charListLt])
      · intro h; cases h
    | cons b bs => exact iff_of_true rfl List.Lex.nil
  | cons c cs ih =>
    intro bs
    cases bs with
    | nil =>
      constructor
      · intro h; exact absurd h (by simp [charListLt])
      · intro h; cases h
    | cons d ds =>
      simp only [charListLt]
      rcases lt_trichotomy c d with h | h | h
      · rw [if_pos h]
        exact iff_of_true rfl (List.Lex.rel h)
      · subst h
        rw [if_neg (lt_irrefl c), if_neg (lt_irrefl c)]
        constructor
        · intro hh; exact List.Lex.cons ((ih ds).mp hh)
        · intro hh
          cases hh with
          | cons htail => exact (ih ds).mpr htail
          | rel hr => exact absurd hr (lt_irrefl c)
      · rw [if_neg (lt_asymm h), if_pos h]
        constructor
        · intro hh; exact absurd hh Bool.false_ne_true
        · intro hh
          cases hh with
          | cons htail => exact absurd h (lt_irrefl _)
          | rel hr => exact absurd hr (lt_asymm h)

theorem strLt_iff_lt (a b : String) : strLt a b = true ↔ a < b := by
  rw [String.lt_iff_toList_lt]
  exact charListLt_lex a.data b.data

theorem strLt_false_iff (a b : String) : strLt a b = false ↔ ¬a < b := by
  rw [← strLt_iff_lt]
  exact Bool.not_eq_true (strLt a b) ▸ Iff.rfl

theorem insertSorted_perm (lt : α → α → Bool) (x : α) :
    ∀ l : List α, (insertSorted lt x l).Perm (x :: l) := by
  intro l
  induction l with
  | nil => exact List.Perm.refl _
  | cons y ys ih =>
    simp only [insertSorted]
    by_cases h : lt y x = true
    · rw [if_pos h]
      exact (ih.cons y).trans (List.Perm.swap x y ys)
    · rw [if_neg h]

theorem sortByLt_perm (lt : α → α → Bool) : ∀ l : List α, (sortByLt lt l).Perm l := by
  intro l
  induction l with
  | nil => exact List.Perm.refl _
  | cons x xs ih =>
    simp only [sortByLt]
    exact (insertSorted_perm lt x (sortByLt lt xs)).trans (ih.cons x)

theorem pairwise_insertSorted (lt : α → α → Bool)
    (hasymm : ∀ a b, lt a b = true → lt b a = false)
    (htrans : ∀ a b c, lt b a = false → lt c b = false → lt c a = false)
    (x : α) : ∀ l : List α, l.Pairwise (fun a b => lt b a = false) →
      (insertSorted lt x l).Pairwise (fun a b => lt b a = false) := by
  intro l
  induction l with
  | nil => intro _; simp [insertSorted]
  | cons y ys ih =>
    intro hp
    rw [List.pairwise_cons] at hp
    obtain ⟨hy, hys⟩ := hp
    simp only [insertSorted]
    by_cases h : lt y x = true
    · rw [if_pos h, List.pairwise_cons]
      constructor
      · intro z hz
        rcases List.mem_cons.mp ((insertSorted_perm lt x ys).mem_iff.mp hz) with hzx | hzys
        · rw [hzx]; exact hasymm y x h
        · exact hy z hzys
      · exact ih hys
    · have hyx : lt y x = false := by simpa using h
      rw [if_neg h, List.pairwise_cons]
      constructor
      · intro z hz
        rcases List.mem_cons.mp hz with hzy | hzys
        · rw [hzy]; exact hyx
        · exact htrans x y z hyx (hy z hzys)
      · exact List.pairwise_cons.mpr ⟨hy, hys⟩

theorem pairwise_sortByLt (lt : α → α → Bool)
    (hasymm : ∀ a b, lt a b = true → lt b a = false)
    (htrans : ∀ a b c, lt b a = false → lt c b = false → lt c a = false) :
    ∀ l : List α, (sortByLt lt l).Pairwise (fun a b => lt b a = false) := by
  intro l
  induction l with
  | nil => simp [sortByLt]
  | cons x xs ih => exact pairwise_insertSorted lt hasymm htrans x (sortByLt lt xs) ih

theorem idGet_idInsert (k : String) (v : Value) :
    ∀ (m : List (String × Value)) (q : String),
      idGet (idInsert k v m) q = if k = q then some v else idGet m q := by
  intro m
  induction m with
  | nil => intro q; simp [idInsert, idGet]
  | cons kv rest ih =>
    intro q
    obtain ⟨k', v'⟩ := kv
    simp only [idInsert]
    by_cases hk : k' = k
    · rw [if_pos hk]
      simp only [idGet]
      by_cases hq : k = q
      · rw [if_pos hq, if_pos hq]
      · rw [if_neg hq, if_neg hq, if_neg (by rw [hk]; exact hq)]
    · rw [if_neg hk]
      simp only [idGet]
      by_cases hq : k' = q
      · rw [if_pos hq, if_neg (by rw [← hq]; exact fun hh => hk hh.symm), if_pos hq]
      · rw [if_neg hq, if_neg hq, ih q]

theorem buildIdMap_append_singleton (xs : List Value) (x : Value) :
    buildIdMap (xs ++ [x]) =
      (match extractId x with
       | some k => idInsert k x (buildIdMap xs)
       | none => buildIdMap xs) := by
  unfold buildIdMap
  rw [List.foldl_append]
  rfl

theorem buildIdMap_skips_idless (l1 l2 : List Value) (e : Value) (he : extractId e = none) :
    buildIdMap (l1 ++ e :: l2) = buildIdMap (l1 ++ l2) := by
  unfold buildIdMap
  rw [List.foldl_append, List.foldl_append, List.foldl_cons, he]


theorem dictOldLoop_eq_mapM (dv : Value → Value → String → Option (List Change))
    (newMap : List (String × Value)) (path : String) :
    ∀ oldMap : List (String × Value),
      dictOldLoop dv oldMap newMap path =
        Option.map List.flatten (List.mapM' (specDelOrRec dv newMap path) oldMap) := by
  intro oldMap
  induction oldMap with
  | nil => rfl
  | cons kv rest ih =>
    obtain ⟨k, oldItem⟩ := kv
    simp only [dictOldLoop, List.mapM']
    cases hget : idGet newMap k with
    | some newItem =>
      have hsd : specDelOrRec dv newMap path (k, oldItem) =
          dv oldItem newItem (path ++ "[" ++ k ++ "]") := by
        simp [specDelOrRec, hget]
      rw [hsd]
      cases hdv : dv oldItem newItem (path ++ "[" ++ k ++ "]") with
      | none => dsimp only; rw [hdv]; rfl
      | some sub =>
        dsimp only
        rw [hdv]
        dsimp only
        rw [ih]
        cases hrest : List.mapM' (specDelOrRec dv newMap path) rest with
        | none => rfl
        | some parts => rfl
    | none =>
      have hsd : specDelOrRec dv newMap path (k, oldItem) =
          some [{ kind := .Deletion, path := path ++ "[" ++ k ++ "]",
                  oldValue := oldItem, newValue := .vnull }] := by
        simp [specDelOrRec, hget]
      rw [hsd]
      dsimp only
      rw [ih]
      cases hrest : List.mapM' (specDelOrRec dv newMap path) rest with
      | none => rfl
      | some parts => rfl

theorem dictNewLoop_eq_filter (oldMap : List (String × Value)) (path : String) :
    ∀ newMap : List (String × Value),
      dictNewLoop newMap oldMap path =
        (newMap.filter (fun kv => (idGet oldMap kv.1).isNone)).map (specAddChange path) := by
  intro newMap
  induction newMap with
  | nil => rfl
  | cons kv rest ih =>
    obtain ⟨k, newItem⟩ := kv
    simp only [dictNewLoop, List.filter_cons]
    cases hget : idGet oldMap k with
    | some v => simpa [hget] using ih
    | none => simpa [hget, specAddChange] using ih

theorem diffSliceOfDictsW_eq_spec (dv : Value → Value → String → Option (List Change))
    (oldSlice newSlice : List Value) (path : String) :
    diffSliceOfDictsW dv oldSlice newSlice path = specRecordMatch dv oldSlice newSlice path := by
  unfold diffSliceOfDictsW specRecordMatch dictDiffCore
  dsimp only
  rw [dictOldLoop_eq_mapM, dictNewLoop_eq_filter]
  cases hm : List.mapM' (specDelOrRec dv (buildIdMap newSlice) path) (buildIdMap oldSlice) with
  | none => rfl
  | some parts => rfl

theorem seqMinLoop_eq_mapM (dv : Value → Value → String → Option (List Change)) (path : String) :
    ∀ (oldSlice newSlice : List Value) (i : Nat),
      seqMinLoop dv oldSlice newSlice i path =
        Option.map List.flatten
          (List.mapM' (specIndexDiff dv path) ((oldSlice.zip newSlice).enumFrom i)) := by
  intro oldSlice
  induction oldSlice with
  | nil => intro newSlice i; rfl
  | cons o os ih =>
    intro newSlice i
    cases newSlice with
    | nil => rfl
    | cons n ns =>
      have hsd : specIndexDiff dv path (i, (o, n)) =
          dv o n (path ++ "[" ++ toString i ++ "]") := rfl
      have ih' := ih ns (i + 1)
      simp only [List.zip] at ih'
      simp only [seqMinLoop, List.zip, List.zipWith_cons_cons, List.enumFrom_cons, List.mapM']
      rw [hsd]
      cases hdv : dv o n (path ++ "[" ++ toString i ++ "]") with
      | none => rfl
      | some sub =>
        dsimp only
        rw [ih']
        cases hrest : List.mapM' (specIndexDiff dv path)
            (List.enumFrom (i + 1) (List.zipWith Prod.mk os ns)) with
        | none => rfl
        | some parts => rfl

theorem seqDels_eq_map (path : String) :
    ∀ (xs : List Value) (i : Nat), seqDels xs i path = (xs.enumFrom i).map (specDelAt path) := by
  intro xs
  induction xs with
  | nil => intro i; rfl
  | cons x rest ih =>
    intro i
    simp only [seqDels, List.enumFrom_cons, List.map_cons, ih (i + 1)]
    rfl

theorem seqAdds_eq_map (path : String) :
    ∀ (xs : List Value) (i : Nat), seqAdds xs i path = (xs.enumFrom i).map (specAddAt path) := by
  intro xs
  induction xs with
  | nil => intro i; rfl
  | cons x rest ih =>
    intro i
    simp only [seqAdds, List.enumFrom_cons, List.map_cons, ih (i + 1)]
    rfl

theorem diffSeqPosW_eq_spec (dv : Value → Value → String → Option (List Change))
    (oldSlice newSlice : List Value) (path : String) :
    diffSeqPosW dv oldSlice newSlice path = specPositional dv oldSlice newSlice path := by
  unfold diffSeqPosW specPositional
  simp only [List.enum]
  rw [seqMinLoop_eq_mapM]
  cases hmin : List.mapM' (specIndexDiff dv path) ((oldSlice.zip newSlice).enumFrom 0) with
  | none => rfl
  | some parts =>
    rw [seqDels_eq_map, seqAdds_eq_map]
    rfl

theorem scanForIds_true_iff : ∀ l : List Value,
    scanForIds l = some true ↔
      ∃ pre m post, l = pre ++ Value.vmap m :: post ∧
        (∀ x ∈ pre, ∃ em, x = Value.vmap em ∧ hasIdKey em = false) ∧
        hasIdKey m = true := by
  intro l
  induction l with
  | nil =>
    constructor
    · intro h; exact absurd h (by simp [scanForIds])
    · rintro ⟨pre, m, post, hl, _, _⟩
      cases pre <;> simp at hl
  | cons x rest ih =>
    cases x with
    | vnull =>
      constructor
      · intro h; exact absurd h (by simp [scanForIds])
      · rintro ⟨pre, m, post, hl, hpre, hm⟩
        cases pre with
        | nil =>
          simp only [List.nil_append] at hl
          injection hl with h1 h2
          exact Value.noConfusion h1
        | cons p ps =>
          simp only [List.cons_append] at hl
          injection hl with h1 h2
          obtain ⟨em, hem, _⟩ := hpre p (List.mem_cons_self p ps)
          rw [← h1] at hem
          exact Value.noConfusion hem
    | vbool b =>
      constructor
      · intro h; exact absurd h (by simp [scanForIds])
      · rintro ⟨pre, m, post, hl, hpre, hm⟩
        cases pre with
        | nil =>
          simp only [List.nil_append] at hl
          injection hl with h1 h2
          exact Value.noConfusion h1
        | cons p ps =>
          simp only [List.cons_append] at hl
          injection hl with h1 h2
          obtain ⟨em, hem, _⟩ := hpre p (List.mem_cons_self p ps)
          rw [← h1] at hem
          exact Value.noConfusion hem
    | vint n =>
      constructor
      · intro h; exact absurd h (by simp [scanForIds])
      · rintro ⟨pre, m, post, hl, hpre, hm⟩
        cases pre with
        | nil =>
          simp only [List.nil_append] at hl
          injection hl with h1 h2
          exact Value.noConfusion h1
        | cons p ps =>
          simp only [List.cons_append] at hl
          injection hl with h1 h2
          obtain ⟨em, hem, _⟩ := hpre p (List.mem_cons_self p ps)
          rw [← h1] at hem
          exact Value.noConfusion hem
    | vstr s =>
      constructor
      · intro h; exact absurd h (by simp [scanForIds])
      · rintro ⟨pre, m, post, hl, hpre, hm⟩
        cases pre with
        | nil =>
          simp only [List.nil_append] at hl
          injection hl with h1 h2
          exact Value.noConfusion h1
        | cons p ps =>
          simp only [List.cons_append] at hl
          injection hl with h1 h2
          obtain ⟨em, hem, _⟩ := hpre p (List.mem_cons_self p ps)
          rw [← h1] at hem
          exact Value.noConfusion hem
    | vseq xs =>
      constructor
      · intro h; exact absurd h (by simp [scanForIds])
      · rintro ⟨pre, m, post, hl, hpre, hm⟩
        cases pre with
        | nil =>
          simp only [List.nil_append] at hl
          injection hl with h1 h2
          exact Value.noConfusion h1
        | cons p ps =>
          simp only [List.cons_append] at hl
          injection hl with h1 h2
          obtain ⟨em, hem, _⟩ := hpre p (List.mem_cons_self p ps)
          rw [← h1] at hem
          exact Value.noConfusion hem
    | vmap m0 =>
      by_cases hid : hasIdKey m0 = true
      · constructor
        · intro _
          exact ⟨[], m0, rest, by simp, by simp, hid⟩
        · intro _
          simp [scanForIds, hid]
      · have hid' : hasIdKey m0 = false := by simpa using hid
        have hscan : scanForIds (Value.vmap m0 :: rest) = scanForIds rest := by
          simp [scanForIds, hid']
        rw [hscan, ih]
        constructor
        · rintro ⟨pre, m, post, hl, hpre, hm⟩
          refine ⟨Value.vmap m0 :: pre, m, post, by rw [hl]; rfl, ?_, hm⟩
          intro y hy
          rcases List.mem_cons.mp hy with hy0 | hy1
          · exact ⟨m0, hy0, hid'⟩
          · exact hpre y hy1
        · rintro ⟨pre, m, post, hl, hpre, hm⟩
          cases pre with
          | nil =>
            simp only [List.nil_append] at hl
            injection hl with h1 h2
            injection h1 with h3
            rw [h3] at hid'
            rw [hid'] at hm
            exact absurd hm (by simp)
          | cons p ps =>
            simp only [List.cons_append] at hl
            injection hl with h1 h2
            exact ⟨ps, m, post, h2, fun y hy => hpre y (List.mem_cons_of_mem p hy), hm⟩

/-- C1: for identifiable-record sequences, `diffSliceOfDicts` behaves
exactly as the spec's Record Matcher: per-element identifiers are the `%v`
string of the first of the keys `name`, `key`, `id` present (`extractId`,
through `buildIdMap`); every identifier present only in the old lookup map
yields exactly one Deletion at `path + "[" + identifier + "]"` carrying the
old element with no recursion; every identifier present only in the new
lookup map yields exactly one Addition at that path carrying the new
element with no recursion; and every identifier present in both yields the
recursive diff of the two full elements at that path (`specRecordMatch`
states this composition, for any recursion fuel). -/
theorem c1_record_matcher_follows_spec (fuel : Nat) (oldSlice newSlice : List Value)
    (path : String) :
    diffSliceOfDicts fuel oldSlice newSlice path =
      specRecordMatch (fun a b p => diffValues fuel a b p) oldSlice newSlice path :=
  diffSliceOfDictsW_eq_spec (fun a b p => diffValues fuel a b p) oldSlice newSlice path

/-- C2: canonicalization is NOT idempotent on every Value — this theorem
evaluates the code at the failing input.  `canonicalize(["z", null])`
succeeds and sorts the null first (Go renders nil as `<nil>`, which sorts
before `"z"`), but `canonicalize([null, "z"])` panics: the re-scan of
`isSliceOfDictsWithIds` calls `reflect.TypeOf(nil).Kind()` on the leading
nil element.  So `canonicalize(canonicalize(v))` panics where
`canonicalize(v)` returns a value. -/
theorem c2_canonicalize_not_idempotent :
    normalizeValue (Value.vseq [Value.vstr "z", Value.vnull]) =
      some (Value.vseq [Value.vnull, Value.vstr "z"]) ∧
    normalizeValue (Value.vseq [Value.vnull, Value.vstr "z"]) = none := by
  constructor
  · decide
  · decide

/-- C3 counterexample to the original claim: the slice
`[{name: "a"}, 42]` is classified as an identifiable-record sequence
(`some true`) although not all of its elements are Mappings — the scan
returns as soon as the first element, a Mapping with an identifier key, is
seen, and never inspects the trailing `42`. -/
theorem c3_counterexample :
    isSliceOfDictsWithIds [Value.vmap [(Value.vstr "name", Value.vstr "a")], Value.vint 42] =
      some true ∧
    List.all [Value.vmap [(Value.vstr "name", Value.vstr "a")], Value.vint 42] isMapB = false := by
  decide

/-- C3 (amended): a sequence is classified as an identifiable-record
sequence iff it is non-empty and, scanning its elements in order, a
Mapping containing one of the keys `name`, `key`, `id` is reached before
any non-Mapping element; the elements before it must be Mappings without
identifier keys, and the elements after it are never inspected.  (An
encountered `Null` element panics instead of classifying; that case is the
`none` result, outside this `some true` characterization.) -/
theorem c3_classifier_characterization (l : List Value) :
    isSliceOfDictsWithIds l = some true ↔
      ∃ pre m post, l = pre ++ Value.vmap m :: post ∧
        (∀ x ∈ pre, ∃ em, x = Value.vmap em ∧ hasIdKey em = false) ∧
        hasIdKey m = true := by
  unfold isSliceOfDictsWithIds
  by_cases hl : l.length = 0
  · rw [if_pos hl]
    have hnil : l = [] := List.length_eq_zero.mp hl
    subst hnil
    constructor
    · intro h; exact absurd h (by simp)
    · rintro ⟨pre, m, post, hl2, _, _⟩
      cases pre <;> simp at hl2
  · rw [if_neg hl]
    exact scanForIds_true_iff l

/-- C4: the canonicalizer is NOT total — this theorem evaluates the code at
the failing input.  On the sequence `[null]`, `normalizeValue` calls
`isSliceOfDictsWithIds`, which calls `reflect.TypeOf(nil).Kind()` on the
nil element and panics with a nil-pointer dereference (`none` in this
embedding), contradicting the claim that canonicalization never fails or
panics, including on sequences whose elements may include Null. -/
theorem c4_canonicalizer_panics_on_null_element :
    normalizeValue (Value.vseq [Value.vnull]) = none := by decide

/-- C5: for two present values of different dynamic types (scalar subtype
mismatches included), `diffValues` emits exactly one Modification at the
given path carrying the full old and new values, with no recursion into
children. -/
theorem c5_type_change_atomic (fuel : Nat) (oldVal newVal : Value) (path : String)
    (ht : goTypeOf oldVal ≠ goTypeOf newVal) (ho : oldVal ≠ .vnull) (hn : newVal ≠ .vnull) :
    diffValues (fuel + 1) oldVal newVal path =
      some [{ kind := .Modification, path := path, oldValue := oldVal, newValue := newVal }] := by
  have hne : oldVal ≠ newVal := fun h => ht (by rw [h])
  simp only [diffValues]
  rw [if_neg hne, if_pos ⟨ht, ho, hn⟩]

theorem c5_type_change_atomic_witness :
    goTypeOf (Value.vstr "a") ≠ goTypeOf (Value.vint 1) ∧
    Value.vstr "a" ≠ Value.vnull ∧ Value.vint 1 ≠ Value.vnull ∧
    diffValues 1 (Value.vstr "a") (Value.vint 1) ".k" =
      some [{ kind := .Modification, path := ".k",
              oldValue := Value.vstr "a", newValue := Value.vint 1 }] :=
  ⟨by decide, by decide, by decide,
    c5_type_change_atomic 0 (Value.vstr "a") (Value.vint 1) ".k"
      (by decide) (by decide) (by decide)⟩

/-- C6: the differ is reflexive — diffing a value against a structurally
equal value yields the empty change collection at any path (the
`reflect.DeepEqual` short-circuit), for any recursion fuel. -/
theorem c6_diff_reflexive (fuel : Nat) (v : Value) (path : String) :
    diffValues (fuel + 1) v v path = some [] := by
  simp [diffValues]

/-- C7: when two sequences are not both identifiable-record sequences, the
differ compares them positionally: it recurses on each index below the
shorter length at `path + "[" + index + "]"` and emits exactly one Deletion
(old longer) or Addition (new longer) at `path + "[" + index + "]"` for
each surplus trailing element, with no recursion into surplus elements
(`specPositional` states this composition). -/
theorem c7_positional_comparison (fuel : Nat) (oldSlice newSlice : List Value) (path : String)
    (hne : Value.vseq oldSlice ≠ Value.vseq newSlice)
    (hcls : isSliceOfDictsWithIds oldSlice = some false ∨
      (isSliceOfDictsWithIds oldSlice = some true ∧
        isSliceOfDictsWithIds newSlice = some false)) :
    diffValues (fuel + 1) (Value.vseq oldSlice) (Value.vseq newSlice) path =
      specPositional (fun a b p => diffValues fuel a b p) oldSlice newSlice path := by
  have hty : ¬(goTypeOf (Value.vseq oldSlice) ≠ goTypeOf (Value.vseq newSlice) ∧
      Value.vseq oldSlice ≠ Value.vnull ∧ Value.vseq newSlice ≠ Value.vnull) := by
    rintro ⟨h1, _, _⟩; exact h1 rfl
  have h3 : ¬(Value.vseq oldSlice = Value.vnull ∧ Value.vseq newSlice ≠ Value.vnull) := by
    rintro ⟨h1, _⟩; exact Value.noConfusion h1
  have h4 : ¬(Value.vseq oldSlice ≠ Value.vnull ∧ Value.vseq newSlice = Value.vnull) := by
    rintro ⟨_, h1⟩; exact Value.noConfusion h1
  simp only [diffValues]
  rw [if_neg hne, if_neg hty, if_neg h3, if_neg h4]
  rcases hcls with h | ⟨h1, h2⟩
  · rw [h]
    exact diffSeqPosW_eq_spec (fun a b p => diffValues fuel a b p) oldSlice newSlice path
  · rw [h1]
    dsimp only
    rw [h2]
    exact diffSeqPosW_eq_spec (fun a b p => diffValues fuel a b p) oldSlice newSlice path

theorem c7_positional_comparison_witness :
    Value.vseq [Value.vint 1, Value.vint 2, Value.vint 3] ≠ Value.vseq [Value.vint 1, Value.vint 9] ∧
    isSliceOfDictsWithIds [Value.vint 1, Value.vint 2, Value.vint 3] = some false ∧
    diffValues 2 (Value.vseq [Value.vint 1, Value.vint 2, Value.vint 3])
        (Value.vseq [Value.vint 1, Value.vint 9]) "" =
      specPositional (fun a b p => diffValues 1 a b p)
        [Value.vint 1, Value.vint 2, Value.vint 3] [Value.vint 1, Value.vint 9] "" :=
  ⟨by decide, by decide,
    c7_positional_comparison 1 [Value.vint 1, Value.vint 2, Value.vint 3]
      [Value.vint 1, Value.vint 9] "" (by decide) (Or.inl (by decide))⟩

/-- C8: the record matcher's collision policy — inserting the elements of a
slice into the lookup map in iteration order means the element occurring
later silently overwrites the earlier one under the same identifier: a
lookup in the map built from `xs ++ [x]` returns `x` itself whenever `x`
extracts the looked-up identifier, regardless of earlier entries, and
otherwise falls back to the map built from `xs`; everything is total, with
no error or failure. -/
theorem c8_identifier_collision_last_wins (xs : List Value) (x : Value) (k : String) :
    idGet (buildIdMap (xs ++ [x])) k =
      if extractId x = some k then some x else idGet (buildIdMap xs) k := by
  rw [buildIdMap_append_singleton]
  cases hx : extractId x with
  | none => simp [hx]
  | some k0 =>
    rw [idGet_idInsert]
    by_cases hk : k0 = k
    · subst hk; simp
    · simp [hk]

/-- C9 counterexample to the original claim: rendering does not leave the
caller's collection unchanged — `generateColoredDiff` sorts the caller's
slice in place by path, so after rendering a collection whose paths are out
of order, the collection differs from its original self. -/
theorem c9_renderer_mutates_collection :
    (generateColoredDiff
      [{ kind := .Addition, path := ".b", oldValue := .vnull, newValue := .vstr "x" },
       { kind := .Deletion, path := ".a", oldValue := .vstr "y", newValue := .vnull }]).1 ≠
      [{ kind := .Addition, path := ".b", oldValue := .vnull, newValue := .vstr "x" },
       { kind := .Deletion, path := ".a", oldValue := .vstr "y", newValue := .vnull }] := by
  decide

/-- C9 (amended): the renderer has no side effect other than sorting the
caller's collection in place by `Path`: after `generateColoredDiff` the
caller's collection is a permutation of its original contents, ordered so
that no later change's path compares strictly below an earlier one's
(an empty collection is returned untouched). -/
theorem c9_renderer_sorts_in_place (cs : List Change) :
    ((generateColoredDiff cs).1).Perm cs ∧
    ((generateColoredDiff cs).1).Pairwise (fun a b => strLt b.path a.path = false) := by
  unfold generateColoredDiff
  by_cases h : cs.length = 0
  · rw [if_pos h]
    have hnil : cs = [] := List.length_eq_zero.mp h
    subst hnil
    exact ⟨List.Perm.refl _, List.Pairwise.nil⟩
  · rw [if_neg h]
    dsimp only
    constructor
    · exact sortByLt_perm _ cs
    · apply pairwise_sortByLt
      · intro a b hab
        rw [strLt_false_iff]
        exact lt_asymm ((strLt_iff_lt _ _).mp hab)
      · intro a b c h1 h2
        rw [strLt_false_iff] at h1 h2 ⊢
        rw [not_lt] at h1 h2 ⊢
        exact le_trans h1 h2

/-- C10: an element of either slice that carries none of the identifier
keys `name`, `key`, `id` is never entered into the lookup maps and never
contributes any change: removing it from (or inserting it into) either the
old or the new slice leaves both the lookup map and the complete output of
`diffSliceOfDicts` unchanged. -/
theorem c10_identifierless_elements_invisible (fuel : Nat) (l1 l2 other : List Value)
    (e : Value) (path : String) (he : extractId e = none) :
    buildIdMap (l1 ++ e :: l2) = buildIdMap (l1 ++ l2) ∧
    diffSliceOfDicts fuel (l1 ++ e :: l2) other path =
      diffSliceOfDicts fuel (l1 ++ l2) other path ∧
    diffSliceOfDicts fuel other (l1 ++ e :: l2) path =
      diffSliceOfDicts fuel other (l1 ++ l2) path := by
  have hb := buildIdMap_skips_idless l1 l2 e he
  refine ⟨hb, ?_, ?_⟩
  · unfold diffSliceOfDicts diffSliceOfDictsW
    rw [hb]
  · unfold diffSliceOfDicts diffSliceOfDictsW
    rw [hb]

theorem c10_identifierless_elements_invisible_witness :
    extractId (Value.vmap [(Value.vstr "x", Value.vint 1)]) = none ∧
    (buildIdMap ([Value.vmap [(Value.vstr "name", Value.vstr "a")]] ++
        Value.vmap [(Value.vstr "x", Value.vint 1)] :: []) =
      buildIdMap ([Value.vmap [(Value.vstr "name", Value.vstr "a")]] ++ []) ∧
    diffSliceOfDicts 1 ([Value.vmap [(Value.vstr "name", Value.vstr "a")]] ++
        Value.vmap [(Value.vstr "x", Value.vint 1)] :: [])
        [Value.vmap [(Value.vstr "name", Value.vstr "b")]] "" =
      diffSliceOfDicts 1 ([Value.vmap [(Value.vstr "name", Value.vstr "a")]] ++ [])
        [Value.vmap [(Value.vstr "name", Value.vstr "b")]] "" ∧
    diffSliceOfDicts 1 [Value.vmap [(Value.vstr "name", Value.vstr "b")]]
        ([Value.vmap [(Value.vstr "name", Value.vstr "a")]] ++
          Value.vmap [(Value.vstr "x", Value.vint 1)] :: []) "" =
      diffSliceOfDicts 1 [Value.vmap [(Value.vstr "name", Value.vstr "b")]]
        ([Value.vmap [(Value.vstr "name", Value.vstr "a")]] ++ []) "") :=
  ⟨by decide,
    c10_identifierless_elements_invisible 1 [Value.vmap [(Value.vstr "name", Value.vstr "a")]]
      [] [Value.vmap [(Value.vstr "name", Value.vstr "b")]]
      (Value.vmap [(Value.vstr "x", Value.vint 1)]) "" (by decide)⟩
